import Mathlib

/-!
Verification of the hq node-set combinator engine (src/hq/html_query.go).

The Go engine works on `*html.Node` trees.  We embed a node as a pure tree
value (`HNode`: type tag, atom name, data payload, ordered children) and a
node pointer as a `PNode`: the document root, the path of child indices from
the root, and the subtree found there.  A consistent Go tree (child/parent
and sibling links mutually consistent, which the spec guarantees from the
external builder) corresponds exactly to this model: `Parent` is the node at
the path with its last index removed, `NextSibling`/`PrevSibling` adjust the
last index, `FirstChild` enumeration walks the children list.

Visitor callbacks in Go are closures that mutate captured state and return
an `error` used as a three-way signal (nil = continue, ErrBreak, other
sentinel errors).  We model a visitor as a state transformer
`σ → PNode → σ × Option GoErr`.
-/

inductive GoErr where
  | notFound
  | brk
  | tooManyNodes
  | invalidNode
  | notTextNode
deriving DecidableEq, Repr

/-- html.NodeType of golang.org/x/net/html. -/
inductive NType where
  | document
  | element
  | text
  | comment
  | doctype
  | raw
deriving DecidableEq, Repr

/-- An html node: type tag, DataAtom (atom name, "" when none), Data payload,
and the ordered children list. -/
inductive HNode where
  | mk (ntype : NType) (dataAtom : String) (data : String) (children : List HNode)

mutual

def HNode.beq : HNode → HNode → Bool
  | .mk t1 a1 d1 cs1, .mk t2 a2 d2 cs2 =>
    t1 == t2 && a1 == a2 && d1 == d2 && HNode.beqList cs1 cs2

def HNode.beqList : List HNode → List HNode → Bool
  | [], [] => true
  | [], _ :: _ => false
  | _ :: _, [] => false
  | c :: cs, e :: es => HNode.beq c e && HNode.beqList cs es

end

mutual

theorem HNode.beq_iff : ∀ a b : HNode, HNode.beq a b = true ↔ a = b
  | .mk t1 a1 d1 cs1, .mk t2 a2 d2 cs2 => by
    rw [HNode.beq]
    simp only [Bool.and_eq_true, beq_iff_eq, HNode.mk.injEq]
    rw [HNode.beqList_iff cs1 cs2]
    tauto

theorem HNode.beqList_iff : ∀ a b : List HNode, HNode.beqList a b = true ↔ a = b
  | [], [] => by rw [HNode.beqList]; simp
  | [], _ :: _ => by rw [HNode.beqList]; simp
  | _ :: _, [] => by rw [HNode.beqList]; simp
  | c :: cs, e :: es => by
    rw [HNode.beqList]
    simp only [Bool.and_eq_true, List.cons.injEq]
    rw [HNode.beq_iff c e, HNode.beqList_iff cs es]

end

instance : DecidableEq HNode := fun a b => decidable_of_iff _ (HNode.beq_iff a b)

def HNode.ntype : HNode → NType
  | .mk t _ _ _ => t

def HNode.dataAtom : HNode → String
  | .mk _ a _ _ => a

def HNode.data : HNode → String
  | .mk _ _ d _ => d

def HNode.children : HNode → List HNode
  | .mk _ _ _ cs => cs

theorem HNode.sizeOf_children_lt (n : HNode) : sizeOf n.children < sizeOf n := by
  cases n with
  | mk t a d cs => simp [HNode.children]

/-- Lookup of the node at a path of child indices. -/
def HNode.get : HNode → List Nat → Option HNode
  | n, [] => some n
  | n, i :: is =>
    match n.children.get? i with
    | some c => HNode.get c is
    | none => none

/-- A node pointer: the tree it lives in, its position, and the subtree
standing there (the Go `*html.Node` is simultaneously position and subtree). -/
structure PNode where
  root : HNode
  path : List Nat
  cur : HNode
deriving DecidableEq

/-- Consistency of a pointer: the subtree recorded in `cur` is the one found
at `path`. -/
def PNode.valid (p : PNode) : Prop := p.root.get p.path = some p.cur

instance (p : PNode) : Decidable p.valid := by
  unfold PNode.valid; infer_instance

/-- Go `node.Parent`: in a consistent tree, the node at the path shortened by
its last index; nil at the root. -/
def PNode.parent (p : PNode) : Option PNode :=
  match p.path with
  | [] => none
  | _ :: _ =>
    match p.root.get p.path.dropLast with
    | some m => some ⟨p.root, p.path.dropLast, m⟩
    | none => none

/-- Go `node.NextSibling`: the node at the same path with the last index
incremented, when it exists. -/
def PNode.nextSibling (p : PNode) : Option PNode :=
  match p.path.getLast? with
  | none => none
  | some i =>
    match p.root.get (p.path.dropLast ++ [i + 1]) with
    | some m => some ⟨p.root, p.path.dropLast ++ [i + 1], m⟩
    | none => none

/-- Go `node.PrevSibling`. -/
def PNode.prevSibling (p : PNode) : Option PNode :=
  match p.path.getLast? with
  | none => none
  | some 0 => none
  | some (i + 1) =>
    match p.root.get (p.path.dropLast ++ [i]) with
    | some m => some ⟨p.root, p.path.dropLast ++ [i], m⟩
    | none => none

/-- The children of a node as pointers, in sibling order (the Go
`FirstChild`/`NextSibling` chain). -/
def PNode.childPNodes (p : PNode) : List PNode :=
  p.cur.children.enum.map fun ic => ⟨p.root, p.path ++ [ic.1], ic.2⟩

/-- hq `FirstChild`: scan the children forward for the first of the type. -/
def FirstChild (node : PNode) (nodeType : NType) : Option PNode :=
  node.childPNodes.find? fun c => c.cur.ntype == nodeType

/-- hq `LastChild`: scan the children backward for the last of the type. -/
def LastChild (node : PNode) (nodeType : NType) : Option PNode :=
  node.childPNodes.reverse.find? fun c => c.cur.ntype == nodeType

/-- hq `ExactText` as written in the source (the condition is inverted with
respect to its own doc comment). -/
def ExactText (node : HNode) : String × Option GoErr :=
  if node.ntype ≠ NType.text then (node.data, none)
  else ("", some GoErr.notTextNode)

/-- The Go visitor signal: `none` is a nil error (continue); `some e` is a
sentinel error, with `GoErr.brk` playing ErrBreak. -/
abbrev Signal := Option GoErr

/-- A Go filter closure: captured state plus the returned signal. -/
abbrev Visitor (σ : Type) := σ → PNode → σ × Signal

/-- The loop body of `fixNodes.ForEach`: stop as soon as a filter call
returns ErrBreak, otherwise run the whole list. -/
def fixLoop {σ : Type} : List PNode → Visitor σ → σ → σ
  | [], _, s => s
  | n :: ns, f, s =>
    let r := f s n
    if r.2 = some GoErr.brk then r.1 else fixLoop ns f r.1

mutual

/-- hq `anyForEach`: consult the filter on the node itself; a nil or
ErrBreak result ends the recursion below this node and is returned;
any other signal means keep searching the children left to right,
propagating only ErrBreak; after the loop the result is nil. -/
def anyForEach {σ : Type} (p : PNode) (f : Visitor σ) (s : σ) : σ × Signal :=
  let r := f s p
  if r.2 = none ∨ r.2 = some GoErr.brk then r
  else anyChildren p.root p.path 0 p.cur.children f r.1
termination_by sizeOf p.cur
decreasing_by
  all_goals simp_wf
  all_goals exact HNode.sizeOf_children_lt _

def anyChildren {σ : Type} (root : HNode) (path : List Nat) (i : Nat) :
    List HNode → Visitor σ → σ → σ × Signal
  | [], _, s => (s, none)
  | c :: cs, f, s =>
    let r := anyForEach ⟨root, path ++ [i], c⟩ f s
    if r.2 = some GoErr.brk then (r.1, some GoErr.brk)
    else anyChildren root path (i + 1) cs f r.1
termination_by cs f s => sizeOf cs
decreasing_by
  all_goals simp_wf
  all_goals omega

end

mutual

/-- hq `childLevelForEach`: at level 0 consult the filter; otherwise visit
every child at level-1, stopping only on ErrBreak, and return nil at the
end of the loop. -/
def childLevelForEach {σ : Type} (p : PNode) (level : Int) (f : Visitor σ) (s : σ) : σ × Signal :=
  if level = 0 then f s p
  else childLevelLoop p.root p.path 0 p.cur.children (level - 1) f s
termination_by sizeOf p.cur
decreasing_by
  all_goals simp_wf
  all_goals exact HNode.sizeOf_children_lt _

def childLevelLoop {σ : Type} (root : HNode) (path : List Nat) (i : Nat) :
    List HNode → Int → Visitor σ → σ → σ × Signal
  | [], _, _, s => (s, none)
  | c :: cs, level, f, s =>
    let r := childLevelForEach ⟨root, path ++ [i], c⟩ level f s
    if r.2 = some GoErr.brk then (r.1, some GoErr.brk)
    else childLevelLoop root path (i + 1) cs level f r.1
termination_by cs level f s => sizeOf cs
decreasing_by
  all_goals simp_wf
  all_goals omega

end

/-- hq `parentLevelForEach`: while the level is negative, step to the parent
(failing with ErrNotFound when there is none); then consult the filter. -/
def parentLevelForEach {σ : Type} (p : PNode) (level : Int) (f : Visitor σ) (s : σ) : σ × Signal :=
  if level < 0 then
    match p.parent with
    | none => (s, some GoErr.notFound)
    | some q => parentLevelForEach q (level + 1) f s
  else f s p
termination_by level.natAbs
decreasing_by
  simp_wf
  omega

/-- hq `siblingForEach`: step `delta` next-sibling links (or `|delta|`
prev-sibling links), failing with ErrNotFound when the chain runs out,
then consult the filter. -/
def siblingForEach {σ : Type} (p : PNode) (delta : Int) (f : Visitor σ) (s : σ) : σ × Signal :=
  if delta > 0 then
    match p.nextSibling with
    | none => (s, some GoErr.notFound)
    | some q => siblingForEach q (delta - 1) f s
  else if delta < 0 then
    match p.prevSibling with
    | none => (s, some GoErr.notFound)
    | some q => siblingForEach q (delta + 1) f s
  else f s p
termination_by delta.natAbs
decreasing_by
  all_goals simp_wf
  all_goals omega

/-- The character set trimmed by hq's text printer: `strings.Trim(v, " \t\r\n")`. -/
def isHqSpace (c : Char) : Bool :=
  c = ' ' || c = '\t' || c = '\r' || c = '\n'

/-- `strings.Trim(s, " \t\r\n")`. -/
def trimWS (s : String) : String :=
  String.mk (((s.data.dropWhile isHqSpace).reverse.dropWhile isHqSpace).reverse)

/-- hq `textPrinter`: the byte buffer and the line-start flag. -/
structure TextPrinter where
  data : List Char
  notLineStart : Bool
deriving DecidableEq

/-- hq `textPrinter.printText`: skip empty fragments; put exactly one space
before a fragment that does not start a line. -/
def printText (p : TextPrinter) (v : String) : TextPrinter :=
  if v = "" then p
  else if p.notLineStart then ⟨p.data ++ [' '] ++ v.data, p.notLineStart⟩
  else ⟨p.data ++ v.data, true⟩

mutual

/-- hq `textPrinter.printNode`: text nodes append their trimmed payload;
other nodes print their children and, for a paragraph atom, append a newline
and reset the line-start flag. -/
def printNode (p : TextPrinter) (node : HNode) : TextPrinter :=
  if node.ntype = NType.text then printText p (trimWS node.data)
  else
    let q := printNodeList p node.children
    if node.dataAtom = "p" then ⟨q.data ++ ['\n'], false⟩ else q
termination_by sizeOf node
decreasing_by
  all_goals simp_wf
  all_goals exact HNode.sizeOf_children_lt _

def printNodeList (p : TextPrinter) : List HNode → TextPrinter
  | [] => p
  | c :: cs => printNodeList (printNode p c) cs
termination_by cs => sizeOf cs
decreasing_by
  all_goals simp_wf
  all_goals omega

end

/-- hq `Text`: render a node with a fresh printer. -/
def Text (node : HNode) : String :=
  String.mk (printNode ⟨[], false⟩ node).data

/-- The synthetic text node made by `textNodes.ForEach`:
`&html.Node{Parent: t, Type: html.TextNode, Data: Text(t)}`.  The node is
parent-linked only; we place it at the first-child position, which is where
`doReplace` would put it. -/
def syntheticTextOf (t : PNode) : PNode :=
  ⟨t.root, t.path ++ [0], HNode.mk NType.text "" (Text t.cur) []⟩

/-- The `doReplace` mutation of `textNodes.ForEach`: the node's child list is
replaced by exactly the synthetic text node carrying the node's rendered
text. -/
def childrenAsTextReplace (t : HNode) : HNode :=
  HNode.mk t.ntype t.dataAtom t.data [HNode.mk NType.text "" (Text t) []]

/-- The Enumerable family: one combinator variant per Go struct implementing
the `NodeEnum` interface.  Upstreams are `Option` because the Go field holds
an interface value that is nil in a zero `NodeSet` (never driven by the
API). -/
inductive NodeEnum where
  | oneNode (node : PNode)
  | fixNodes (nodes : List PNode)
  | anyNodes (data : Option NodeEnum)
  | childLevelNodes (data : Option NodeEnum) (level : Int)
  | parentLevelNodes (data : Option NodeEnum) (level : Int)
  | siblingNodes (data : Option NodeEnum) (delta : Int)
  | firstChildNodes (data : Option NodeEnum) (nodeType : NType)
  | lastChildNodes (data : Option NodeEnum) (nodeType : NType)
  | matchedNodes (data : Option NodeEnum) (filter : PNode → Bool)
  | textNodes (data : Option NodeEnum) (doReplace : Bool)

mutual

/-- The `ForEach` of each combinator, as in the Go source.  Driving a nil
upstream is modeled as the empty drive (the Go program would crash there;
the public API never produces such a value). -/
def NodeEnum.forEach {σ : Type} : NodeEnum → Visitor σ → σ → σ
  | .oneNode n, f, s => (f s n).1
  | .fixNodes ns, f, s => fixLoop ns f s
  | .anyNodes d, f, s =>
    NodeEnum.forEachOpt d (fun s1 n => ((anyForEach n f s1).1, none)) s
  | .childLevelNodes d level, f, s =>
    NodeEnum.forEachOpt d (fun s1 n => childLevelForEach n level f s1) s
  | .parentLevelNodes d level, f, s =>
    NodeEnum.forEachOpt d (fun s1 n => parentLevelForEach n level f s1) s
  | .siblingNodes d delta, f, s =>
    NodeEnum.forEachOpt d (fun s1 n => siblingForEach n delta f s1) s
  | .firstChildNodes d t, f, s =>
    NodeEnum.forEachOpt d
      (fun s1 n =>
        match FirstChild n t with
        | none => (s1, some GoErr.notFound)
        | some c => f s1 c) s
  | .lastChildNodes d t, f, s =>
    NodeEnum.forEachOpt d
      (fun s1 n =>
        match LastChild n t with
        | none => (s1, some GoErr.notFound)
        | some c => f s1 c) s
  | .matchedNodes d flt, f, s =>
    NodeEnum.forEachOpt d
      (fun s1 n => if flt n then f s1 n else (s1, some GoErr.notFound)) s
  | .textNodes d _, f, s =>
    NodeEnum.forEachOpt d (fun s1 n => f s1 (syntheticTextOf n)) s

def NodeEnum.forEachOpt {σ : Type} : Option NodeEnum → Visitor σ → σ → σ
  | none, _, s => s
  | some d, f, s => NodeEnum.forEach d f s

end

/-- The Go type assertion `p.Data.(cachedNodeEnum)`: which variants implement
the `Cached() int` method (`oneNode`, `*fixNodes`, `*anyNodes`). -/
def isCachedEnum : Option NodeEnum → Bool
  | some (NodeEnum.oneNode _) => true
  | some (NodeEnum.fixNodes _) => true
  | some (NodeEnum.anyNodes _) => true
  | _ => false

/-- The `Cached()` values: 1 for a single node, the length for a fixed list,
and the -1 unknown/lazy sentinel for the deep-search combinator. -/
def cachedVal : Option NodeEnum → Option Int
  | some (NodeEnum.oneNode _) => some 1
  | some (NodeEnum.fixNodes ns) => some ns.length
  | some (NodeEnum.anyNodes _) => some (-1)
  | _ => none

/-- hq `NodeSet`: an enumerable plus the carried failure. -/
structure NodeSet where
  Data : Option NodeEnum
  Err : Option GoErr

def NodeSet.Ok (p : NodeSet) : Bool := p.Err = none

def NodeSet.CachedLen (p : NodeSet) : Int :=
  match cachedVal p.Data with
  | some v => v
  | none => 0

/-- The collector visitor of `NodeSet.Collect`. -/
def collectStep : Visitor (List PNode) := fun s n => (s ++ [n], none)

/-- hq `NodeSet.Collect`. -/
def NodeSet.Collect (p : NodeSet) : List PNode × Option GoErr :=
  match p.Err with
  | some e => ([], some e)
  | none => (NodeEnum.forEachOpt p.Data collectStep [], none)

/-- The visitor of the exactly-one branch of `CollectOne`: the first node is
kept, a second switches the failure to ErrTooManyNodes and breaks. -/
def collectOneExStep : Visitor (Option PNode × Option GoErr) := fun s n =>
  if s.2 = some GoErr.notFound then ((some n, none), none)
  else ((s.1, some GoErr.tooManyNodes), some GoErr.brk)

/-- The visitor of the plain branch of `CollectOne`: keep the first node and
break at once. -/
def collectOnePlainStep : Visitor (Option PNode × Option GoErr) := fun _ n =>
  ((some n, none), some GoErr.brk)

/-- hq `NodeSet.CollectOne`, with the Go variadic argument as a list.  The
result is `none` when the call panics (`CollectOne(false)`), `some` of the
returned (node, error) pair otherwise. -/
def NodeSet.CollectOne (p : NodeSet) (exactly : List Bool) :
    Option (Option PNode × Option GoErr) :=
  match p.Err with
  | some e => some (none, some e)
  | none =>
    match exactly with
    | [] => some (NodeEnum.forEachOpt p.Data collectOnePlainStep (none, some GoErr.notFound))
    | b :: _ =>
      if b = false then none
      else some (NodeEnum.forEachOpt p.Data collectOneExStep (none, some GoErr.notFound))

/-- hq `NodeSet.Cache`: no-op when the Data implements the cached marker,
collect-and-rewrap otherwise. -/
def NodeSet.Cache (p : NodeSet) : NodeSet :=
  if isCachedEnum p.Data then p
  else
    match p.Collect with
    | (_, some e) => ⟨none, some e⟩
    | (nodes, none) => ⟨some (NodeEnum.fixNodes nodes), none⟩

/-- hq `NodeSet.Any`. -/
def NodeSet.Any (p : NodeSet) : NodeSet :=
  if p.Err ≠ none then p
  else ⟨some (NodeEnum.anyNodes p.Data), none⟩

/-- hq `NodeSet.ChildN`. -/
def NodeSet.ChildN (p : NodeSet) (level : Int) : NodeSet :=
  if p.Err ≠ none ∨ level = 0 then p
  else if level > 0 then ⟨some (NodeEnum.childLevelNodes p.Data level), none⟩
  else ⟨some (NodeEnum.parentLevelNodes p.Data level), none⟩

def NodeSet.Child (p : NodeSet) : NodeSet := p.ChildN 1

def NodeSet.Parent (p : NodeSet) : NodeSet := p.ChildN (-1)

def NodeSet.ParentN (p : NodeSet) (level : Int) : NodeSet := p.ChildN (-level)

/-- hq `NodeSet.NextSibling`. -/
def NodeSet.NextSibling (p : NodeSet) (delta : Int) : NodeSet :=
  if p.Err ≠ none then p
  else ⟨some (NodeEnum.siblingNodes p.Data delta), none⟩

def NodeSet.PrevSibling (p : NodeSet) (delta : Int) : NodeSet :=
  p.NextSibling (-delta)

/-- hq `NodeSet.FirstChild`. -/
def NodeSet.FirstChild (p : NodeSet) (nodeType : NType) : NodeSet :=
  if p.Err ≠ none then p
  else ⟨some (NodeEnum.firstChildNodes p.Data nodeType), none⟩

/-- hq `NodeSet.LastChild`. -/
def NodeSet.LastChild (p : NodeSet) (nodeType : NType) : NodeSet :=
  if p.Err ≠ none then p
  else ⟨some (NodeEnum.lastChildNodes p.Data nodeType), none⟩

/-- hq `NodeSet.Match`. -/
def NodeSet.Match (p : NodeSet) (filter : PNode → Bool) : NodeSet :=
  if p.Err ≠ none then p
  else ⟨some (NodeEnum.matchedNodes p.Data filter), none⟩

/-- hq `NodeSet.ChildrenAsText`. -/
def NodeSet.ChildrenAsText (p : NodeSet) (doReplace : Bool) : NodeSet :=
  if p.Err ≠ none then p
  else ⟨some (NodeEnum.textNodes p.Data doReplace), none⟩

mutual

/-- Pre-order (document-order) traversal of the subtree at a pointer. -/
def preorderP (p : PNode) : List PNode :=
  p :: preorderChildren p.root p.path 0 p.cur.children
termination_by sizeOf p.cur
decreasing_by
  all_goals simp_wf
  all_goals exact HNode.sizeOf_children_lt _

def preorderChildren (root : HNode) (path : List Nat) (i : Nat) :
    List HNode → List PNode
  | [] => []
  | c :: cs => preorderP ⟨root, path ++ [i], c⟩ ++ preorderChildren root path (i + 1) cs
termination_by cs => sizeOf cs
decreasing_by
  all_goals simp_wf
  all_goals omega

end

mutual

/-- The depth-n descendants of a pointer, in document order (the nodes that
`childLevelForEach` consults its filter on). -/
def descAt : Nat → PNode → List PNode
  | 0, p => [p]
  | n + 1, p => descAtList n p.root p.path 0 p.cur.children
termination_by n p => sizeOf p.cur
decreasing_by
  all_goals simp_wf
  all_goals exact HNode.sizeOf_children_lt _

def descAtList (n : Nat) (root : HNode) (path : List Nat) (i : Nat) :
    List HNode → List PNode
  | [] => []
  | c :: cs => descAt n ⟨root, path ++ [i], c⟩ ++ descAtList n root path (i + 1) cs
termination_by cs => sizeOf cs
decreasing_by
  all_goals simp_wf
  all_goals omega

end

/-- Running a visitor over a list of nodes with no early exit, keeping only
the threaded state. -/
def runList {σ : Type} (f : Visitor σ) (l : List PNode) (s : σ) : σ :=
  l.foldl (fun s n => (f s n).1) s

/-- The reference sequential drive that stops at the first ErrBreak: final
state plus the exact list of nodes the visitor was consulted on. -/
def runUntilBrk {σ : Type} (f : Visitor σ) : σ → List PNode → σ × List PNode
  | s, [] => (s, [])
  | s, n :: ns =>
    let r := f s n
    if r.2 = some GoErr.brk then (r.1, [n])
    else
      let t := runUntilBrk f r.1 ns
      (t.1, n :: t.2)

/-- Instrumentation: record every node the visitor is consulted on. -/
def traceVisitor {σ : Type} (f : Visitor σ) : Visitor (σ × List PNode) :=
  fun st n =>
    let r := f st.1 n
    ((r.1, st.2 ++ [n]), r.2)

/-- Instrumentation: count the visitor consultations. -/
def countingVisitor {σ : Type} (f : Visitor σ) : Visitor (σ × Nat) :=
  fun st n =>
    let r := f st.1 n
    ((r.1, st.2 + 1), r.2)

/-- A visitor that records every node and declines it with the internal
skip signal (the behavior of a match-style filter that never accepts). -/
def recordSkip : Visitor (List PNode) := fun s n => (s ++ [n], some GoErr.notFound)

/-- A visitor that breaks at once on every node. -/
def brkAll : Visitor Unit := fun _ _ => ((), some GoErr.brk)

/-- The tree `<div><p>A</p><p>B</p></div>` (the spec's deep-search example),
rooted at the div. -/
def exTextA : HNode := HNode.mk NType.text "" "A" []

def exTextB : HNode := HNode.mk NType.text "" "B" []

def exPA : HNode := HNode.mk NType.element "p" "p" [exTextA]

def exPB : HNode := HNode.mk NType.element "p" "p" [exTextB]

def exDiv : HNode := HNode.mk NType.element "div" "div" [exPA, exPB]

def exDivLoc : PNode := ⟨exDiv, [], exDiv⟩

def exPALoc : PNode := ⟨exDiv, [0], exPA⟩

def exPBLoc : PNode := ⟨exDiv, [1], exPB⟩

/-- Three single-node documents, used as fixed-list inputs. -/
def leafA : HNode := HNode.mk NType.text "" "a" []

def leafB : HNode := HNode.mk NType.text "" "b" []

def leafC : HNode := HNode.mk NType.text "" "c" []

def leafALoc : PNode := ⟨leafA, [], leafA⟩

def leafBLoc : PNode := ⟨leafB, [], leafB⟩

def leafCLoc : PNode := ⟨leafC, [], leafC⟩

/-- Claim C1 (code bug evidence): `ExactText` as written fails with the
NotTextNode error exactly ON a Text node and returns the payload for every
non-Text node — the inverse of the claim and of the function's own doc
comment ("ExactText returns a text node's text"). -/
theorem exactText_inverted :
    ExactText (HNode.mk NType.text "" "A" []) = ("", some GoErr.notTextNode) ∧
    ExactText (HNode.mk NType.element "div" "div" []) = ("div", none) := by
  constructor <;> rfl

/-- Claim C4: every chained operator on a NodeSet whose failure is set
returns the very same NodeSet (it never inspects or wraps the enumerable),
and both terminal collectors return the original failure value unchanged. -/
theorem failed_set_passthrough (d : Option NodeEnum) (e : GoErr) (level delta : Int)
    (flt : PNode → Bool) (rep : Bool) (nt : NType) (ex : List Bool) :
    (NodeSet.mk d (some e)).ChildN level = NodeSet.mk d (some e) ∧
    (NodeSet.mk d (some e)).Any = NodeSet.mk d (some e) ∧
    (NodeSet.mk d (some e)).NextSibling delta = NodeSet.mk d (some e) ∧
    (NodeSet.mk d (some e)).PrevSibling delta = NodeSet.mk d (some e) ∧
    (NodeSet.mk d (some e)).Match flt = NodeSet.mk d (some e) ∧
    (NodeSet.mk d (some e)).ChildrenAsText rep = NodeSet.mk d (some e) ∧
    (NodeSet.mk d (some e)).FirstChild nt = NodeSet.mk d (some e) ∧
    (NodeSet.mk d (some e)).LastChild nt = NodeSet.mk d (some e) ∧
    (NodeSet.mk d (some e)).Child = NodeSet.mk d (some e) ∧
    (NodeSet.mk d (some e)).Parent = NodeSet.mk d (some e) ∧
    (NodeSet.mk d (some e)).ParentN level = NodeSet.mk d (some e) ∧
    (NodeSet.mk d (some e)).Collect = ([], some e) ∧
    (NodeSet.mk d (some e)).CollectOne ex = some (none, some e) := by
  refine ⟨?_, ?_, ?_, ?_, ?_, ?_, ?_, ?_, ?_, ?_, ?_, ?_, ?_⟩ <;>
    simp [NodeSet.ChildN, NodeSet.Any, NodeSet.NextSibling, NodeSet.PrevSibling,
      NodeSet.Match, NodeSet.ChildrenAsText, NodeSet.FirstChild, NodeSet.LastChild,
      NodeSet.Child, NodeSet.Parent, NodeSet.ParentN, NodeSet.Collect, NodeSet.CollectOne]

/-- Claim C9 (amended): `CollectOne` panics exactly when the node set is not
failed and the first variadic argument is an explicit false; a failed
NodeSet returns its failure before the argument is inspected. -/
theorem collectOne_panic_iff (p : NodeSet) (ex : List Bool) :
    (p.CollectOne ex).isNone = (p.Err.isNone && ex.head? == some false) := by
  cases p with
  | mk d err =>
    cases err with
    | none =>
      cases ex with
      | nil => simp [NodeSet.CollectOne]
      | cons b t => cases b <;> simp [NodeSet.CollectOne]
    | some e => simp [NodeSet.CollectOne]

/-- Claim C9 (counterexample to the claim as stated): on a failed NodeSet,
`CollectOne(false)` does not panic; the original failure is returned before
the argument is inspected. -/
theorem collectOne_false_failed_returns :
    NodeSet.CollectOne ⟨none, some GoErr.notFound⟩ [false]
      = some (none, some GoErr.notFound) := by
  rfl

/-- Claim C10: on a non-failed NodeSet, `Collect` never reports an error; in
particular a set that emits zero nodes collects to the empty sequence with
no error, while zero emissions make `CollectOne` fail with ErrNotFound (in
both of its call forms). -/
theorem collect_empty_success (d : NodeEnum) :
    (NodeSet.Collect ⟨some d, none⟩).2 = none ∧
    ((NodeSet.Collect ⟨some d, none⟩).1 = [] →
      NodeSet.Collect ⟨some d, none⟩ = ([], none)) ∧
    NodeSet.CollectOne ⟨some (NodeEnum.fixNodes []), none⟩ []
      = some (none, some GoErr.notFound) ∧
    NodeSet.CollectOne ⟨some (NodeEnum.fixNodes []), none⟩ [true]
      = some (none, some GoErr.notFound) := by
  refine ⟨rfl, ?_, rfl, rfl⟩
  intro h
  simp [NodeSet.Collect] at h ⊢
  exact h

/-- Claim C10 witness: the empty fixed list emits zero nodes and collects to
the empty sequence with no error. -/
theorem collect_empty_success_witness :
    (NodeSet.Collect ⟨some (NodeEnum.fixNodes []), none⟩).1 = [] ∧
    NodeSet.Collect ⟨some (NodeEnum.fixNodes []), none⟩ = ([], none) :=
  ⟨rfl, (collect_empty_success (NodeEnum.fixNodes [])).2.1 rfl⟩

/-- Claim C7 (amended): `Cache` is a no-op exactly when the enumerable
implements the cached-length marker — which the deep-search combinator does,
reporting the -1 unknown/lazy sentinel — and only marker-less enumerables
are collected and rewrapped as a fixed list; the reported length value is
never consulted. -/
theorem cache_marker_decides (d : Option NodeEnum) :
    NodeSet.Cache ⟨d, none⟩ =
      (if isCachedEnum d then (⟨d, none⟩ : NodeSet)
       else ⟨some (NodeEnum.fixNodes (NodeSet.Collect ⟨d, none⟩).1), none⟩) ∧
    cachedVal (some (NodeEnum.anyNodes d)) = some (-1) := by
  constructor
  · by_cases h : isCachedEnum d = true <;> simp [NodeSet.Cache, NodeSet.Collect, h]
  · rfl

/-- Claim C7 (counterexample to the claim as stated): a deep-search node set
is lazy and reports the -1 sentinel, yet `Cache` is a no-op on it — it is
not collected and rewrapped as a fixed list. -/
theorem cache_noop_on_any_sentinel :
    NodeSet.Cache ⟨some (NodeEnum.anyNodes (some (NodeEnum.oneNode exDivLoc))), none⟩
      = ⟨some (NodeEnum.anyNodes (some (NodeEnum.oneNode exDivLoc))), none⟩ ∧
    cachedVal (some (NodeEnum.anyNodes (some (NodeEnum.oneNode exDivLoc)))) = some (-1) ∧
    (NodeSet.Cache ⟨some (NodeEnum.anyNodes (some (NodeEnum.oneNode exDivLoc))), none⟩).Data ≠
      some (NodeEnum.fixNodes
        (NodeSet.Collect ⟨some (NodeEnum.anyNodes (some (NodeEnum.oneNode exDivLoc))), none⟩).1) := by
  refine ⟨rfl, rfl, ?_⟩
  simp [NodeSet.Cache, isCachedEnum]

theorem fixLoop_trace {σ : Type} (f : Visitor σ) (ns : List PNode) (s : σ) (tr : List PNode) :
    fixLoop ns (traceVisitor f) (s, tr)
      = ((runUntilBrk f s ns).1, tr ++ (runUntilBrk f s ns).2) := by
  induction ns generalizing s tr with
  | nil => simp [fixLoop, runUntilBrk]
  | cons n ns ih =>
    simp only [fixLoop, runUntilBrk, traceVisitor]
    by_cases h : (f s n).2 = some GoErr.brk
    · simp [h]
    · simp [h, ih]

theorem matched_fix_trace {σ : Type} (f : Visitor σ) (flt : PNode → Bool)
    (ns : List PNode) (s : σ) (tr : List PNode) :
    NodeEnum.forEach (NodeEnum.matchedNodes (some (NodeEnum.fixNodes ns)) flt)
        (traceVisitor f) (s, tr)
      = ((runUntilBrk f s (ns.filter flt)).1, tr ++ (runUntilBrk f s (ns.filter flt)).2) := by
  simp only [NodeEnum.forEach, NodeEnum.forEachOpt]
  induction ns generalizing s tr with
  | nil => simp [fixLoop, runUntilBrk]
  | cons n ns ih =>
    simp only [traceVisitor] at ih ⊢
    by_cases hm : flt n
    · simp only [fixLoop, List.filter_cons, hm, if_pos, runUntilBrk, traceVisitor]
      by_cases h : (f s n).2 = some GoErr.brk
      · simp [h]
      · simp [h, ih]
    · simp only [fixLoop, List.filter_cons]
      simp [hm, ih]

/-- Claim C6 (amended): the fixed-list drive and the match combinator honor
the Break protocol — the visitor is consulted exactly on the order-preserving
prefix that ends at its first ErrBreak (the filtered prefix, for match), and
the Break stops the drive there; the deep-search combinator, by contrast,
discards the signal across input roots (see the counterexample). -/
theorem break_stops_fixed_and_matched :
    (∀ (σ : Type) (f : Visitor σ) (ns : List PNode) (s : σ),
      NodeEnum.forEach (NodeEnum.fixNodes ns) (traceVisitor f) (s, [])
        = ((runUntilBrk f s ns).1, (runUntilBrk f s ns).2)) ∧
    (∀ (σ : Type) (f : Visitor σ) (flt : PNode → Bool) (ns : List PNode) (s : σ),
      NodeEnum.forEach (NodeEnum.matchedNodes (some (NodeEnum.fixNodes ns)) flt)
          (traceVisitor f) (s, [])
        = ((runUntilBrk f s (ns.filter flt)).1, (runUntilBrk f s (ns.filter flt)).2)) := by
  constructor
  · intro σ f ns s
    simpa using fixLoop_trace f ns s []
  · intro σ f flt ns s
    simpa using matched_fix_trace f flt ns s []

/-- Claim C6 (counterexample to the claim as stated): with two input roots,
`anyNodes.ForEach` swallows the visitor's ErrBreak — the visitor is driven
again on the second root's subtree after it returned Break on the first. -/
theorem anyNodes_swallows_break :
    NodeEnum.forEach (NodeEnum.anyNodes (some (NodeEnum.fixNodes [leafALoc, leafBLoc])))
      (traceVisitor brkAll) ((), []) = ((), [leafALoc, leafBLoc]) ∧
    ([leafALoc, leafBLoc] : List PNode) ≠ [leafALoc] := by
  constructor
  · simp [NodeEnum.forEach, NodeEnum.forEachOpt, fixLoop, anyForEach, traceVisitor, brkAll]
  · decide

/-- Claim C5 (amended): on a non-failed fixed-list node set, `CollectOne` in
exactly-one mode returns ErrNotFound for zero nodes, the single node for
one, and ErrTooManyNodes (with the first node) for two or more, consulting
its visitor on at most two — exactly `min length 2` — nodes. -/
theorem collectOne_exactly_fixed_behavior (ns : List PNode) :
    NodeSet.CollectOne ⟨some (NodeEnum.fixNodes ns), none⟩ [true]
      = some (match ns with
          | [] => (none, some GoErr.notFound)
          | [a] => (some a, none)
          | a :: _ :: _ => (some a, some GoErr.tooManyNodes)) ∧
    (NodeEnum.forEach (NodeEnum.fixNodes ns)
        (countingVisitor collectOneExStep) ((none, some GoErr.notFound), 0)).2
      = min ns.length 2 := by
  match ns with
  | [] => exact ⟨rfl, rfl⟩
  | [a] =>
    constructor <;>
      simp [NodeSet.CollectOne, NodeEnum.forEach, NodeEnum.forEachOpt, fixLoop,
        collectOneExStep, countingVisitor]
  | a :: b :: tl =>
    constructor <;>
      simp [NodeSet.CollectOne, NodeEnum.forEach, NodeEnum.forEachOpt, fixLoop,
        collectOneExStep, countingVisitor]

/-- Claim C5 (counterexample to the claim as stated): on a deep-search node
set over three single-node roots, exactly-one `CollectOne` still returns
ErrTooManyNodes, but its visitor is consulted on three nodes — the Break
issued after the second node is swallowed by `anyNodes.ForEach`. -/
theorem collectOne_exactly_any_three_visits :
    NodeSet.CollectOne
        ⟨some (NodeEnum.anyNodes (some (NodeEnum.fixNodes [leafALoc, leafBLoc, leafCLoc]))),
         none⟩ [true]
      = some (some leafALoc, some GoErr.tooManyNodes) ∧
    (NodeEnum.forEach
        (NodeEnum.anyNodes (some (NodeEnum.fixNodes [leafALoc, leafBLoc, leafCLoc])))
        (countingVisitor collectOneExStep) ((none, some GoErr.notFound), 0)).2 = 3 ∧
    ¬ (3 ≤ 2) := by
  refine ⟨?_, ?_, by omega⟩ <;>
    simp [NodeSet.CollectOne, NodeEnum.forEach, NodeEnum.forEachOpt, fixLoop, anyForEach,
      collectOneExStep, countingVisitor]

mutual

theorem anyForEach_recordSkip (p : PNode) (s : List PNode) :
    anyForEach p recordSkip s = (s ++ preorderP p, none) := by
  rw [preorderP]
  simp only [anyForEach, recordSkip]
  rw [if_neg (by simp)]
  rw [anyChildren_recordSkip p.root p.path 0 p.cur.children (s ++ [p])]
  simp
termination_by sizeOf p.cur
decreasing_by
  all_goals simp_wf
  all_goals exact HNode.sizeOf_children_lt _

theorem anyChildren_recordSkip (root : HNode) (path : List Nat) (i : Nat)
    (cs : List HNode) (s : List PNode) :
    anyChildren root path i cs recordSkip s
      = (s ++ preorderChildren root path i cs, none) := by
  match cs with
  | [] =>
    rw [preorderChildren]
    simp [anyChildren]
  | c :: rest =>
    rw [preorderChildren]
    simp only [anyChildren]
    rw [anyForEach_recordSkip ⟨root, path ++ [i], c⟩ s]
    rw [if_neg (by simp)]
    rw [anyChildren_recordSkip root path (i + 1) rest (s ++ preorderP ⟨root, path ++ [i], c⟩)]
    simp
termination_by sizeOf cs
decreasing_by
  all_goals simp_wf
  all_goals omega

end

/-- Claim C2 (amended): the deep-search combinator walks each input subtree
in pre-order, node first then children left to right; when the visitor
declines every node with the internal skip signal, every node of the subtree
is visited in exactly document order, and the Element nodes among that visit
sequence for `<div><p>A</p><p>B</p></div>` are [div, p(A), p(B)].  A node the
visitor accepts, however, has its descendants pruned (see the
counterexample). -/
theorem any_visits_preorder_when_skipped :
    (∀ (p : PNode) (s : List PNode),
      anyForEach p recordSkip s = (s ++ preorderP p, none)) ∧
    (preorderP exDivLoc).filter (fun q => q.cur.ntype == NType.element)
      = [exDivLoc, exPALoc, exPBLoc] := by
  constructor
  · exact anyForEach_recordSkip
  · simp [preorderP, preorderChildren, exDivLoc, exDiv, exPA, exPB, exTextA, exTextB,
      exPALoc, exPBLoc, HNode.children, HNode.ntype]

/-- Claim C2 (counterexample to the claim as stated): collecting the
deep-search filtered to Element nodes over the tree
`<div><p>A</p><p>B</p></div>` emits only [div] — the accepted div's
subtree is pruned, so the two p elements are never emitted. -/
theorem any_match_collect_prunes :
    NodeSet.Collect (NodeSet.Match (NodeSet.Any ⟨some (NodeEnum.oneNode exDivLoc), none⟩)
        (fun q => q.cur.ntype == NType.element))
      = ([exDivLoc], none) ∧
    ([exDivLoc] : List PNode) ≠ [exDivLoc, exPALoc, exPBLoc] := by
  constructor
  · simp [NodeSet.Collect, NodeSet.Match, NodeSet.Any, NodeEnum.forEach, NodeEnum.forEachOpt,
      anyForEach, collectStep, exDivLoc, exDiv, HNode.ntype]
  · decide

theorem string_data_append (a b : String) : (a ++ b).data = a.data ++ b.data := by
  cases a; cases b; rfl

/-- Claim C8 (amended): re-rendering after the materializing replacement
yields the first rendering trimmed of surrounding whitespace, with the
paragraph newline re-appended when the node is a p element; the two payloads
coincide exactly when that expression equals the first rendering (e.g. any p
whose body text is already trimmed), and differ otherwise (see the
counterexample). -/
theorem childrenAsText_second_render (t : HNode) (h : t.ntype ≠ NType.text) :
    Text (childrenAsTextReplace t)
      = trimWS (Text t) ++ (if t.dataAtom = "p" then "\n" else "") := by
  cases t with
  | mk nt da dd cs =>
    simp only [HNode.ntype] at h
    simp only [childrenAsTextReplace, HNode.ntype, HNode.dataAtom, HNode.data, HNode.children]
    generalize Text (HNode.mk nt da dd cs) = F
    apply String.ext
    rw [string_data_append]
    simp only [Text, printNode, printNodeList, printText, HNode.ntype, HNode.dataAtom,
      HNode.data, HNode.children, h, if_neg, if_false]
    split_ifs with h1 h2 <;> simp_all

/-- Claim C8 witness: the general formula applied to the p element of the
example tree (whose two renderings do coincide). -/
theorem childrenAsText_second_render_witness :
    exPA.ntype ≠ NType.text ∧
    Text (childrenAsTextReplace exPA)
      = trimWS (Text exPA) ++ (if exPA.dataAtom = "p" then "\n" else "") :=
  ⟨by decide, childrenAsText_second_render exPA (by decide)⟩

/-- Claim C8 (counterexample to the claim as stated): for a div containing
two p children, the first call renders "A\nB\n" but the second call — which
re-renders from the replaced single-text-node child list — yields "A\nB":
the trailing paragraph newline is trimmed away and not re-appended. -/
theorem childrenAsText_second_render_differs :
    Text exDiv = "A\nB\n" ∧
    Text (childrenAsTextReplace exDiv) = "A\nB" ∧
    Text (childrenAsTextReplace exDiv) ≠ Text exDiv := by
  have h1 : Text exDiv = "A\nB\n" := by
    simp [Text, exDiv, exPA, exPB, exTextA, exTextB, printNode, printNodeList, printText,
      trimWS, isHqSpace, HNode.ntype, HNode.data, HNode.dataAtom, HNode.children]
  have h2 : Text (childrenAsTextReplace exDiv) = "A\nB" := by
    rw [childrenAsTextReplace, h1]
    simp [Text, exDiv, printNode, printNodeList, printText, trimWS, isHqSpace,
      HNode.ntype, HNode.data, HNode.dataAtom, HNode.children]
  refine ⟨h1, h2, ?_⟩
  rw [h1, h2]
  decide

theorem get_append (n : HNode) (a b : List Nat) :
    n.get (a ++ b) = (n.get a).bind (fun m => m.get b) := by
  induction a generalizing n with
  | nil => simp [HNode.get]
  | cons i is ih =>
    simp only [List.cons_append, HNode.get]
    cases h : n.children.get? i with
    | none => simp
    | some c => simp [ih]

theorem parent_concat (root : HNode) (xs : List Nat) (i : Nat) (c m : HNode)
    (hm : root.get xs = some m) :
    PNode.parent ⟨root, xs ++ [i], c⟩ = some ⟨root, xs, m⟩ := by
  unfold PNode.parent
  have hd : (xs ++ [i]).dropLast = xs := by
    simp
  cases hxs : xs ++ [i] with
  | nil => exact absurd hxs (by simp)
  | cons y ys =>
    simp only
    rw [← hxs, hd, hm]

theorem parentLevel_brkFree {σ : Type} (f : Visitor σ)
    (hf : ∀ s n, (f s n).2 ≠ some GoErr.brk) (p : PNode) (level : Int) (s : σ) :
    (parentLevelForEach p level f s).2 ≠ some GoErr.brk := by
  rw [parentLevelForEach]
  split
  · split
    · simp
    · exact parentLevel_brkFree f hf _ (level + 1) s
  · exact hf s p
termination_by level.natAbs
decreasing_by
  simp_wf
  omega

theorem parentLevel_ascend {σ : Type} (f : Visitor σ) (root : HNode) (q : List Nat) :
    ∀ (path : List Nat) (m c : HNode) (s : σ),
      root.get path = some m → root.get (path ++ q) = some c →
      parentLevelForEach ⟨root, path ++ q, c⟩ (-(q.length : Int)) f s = f s ⟨root, path, m⟩ := by
  induction q using List.reverseRecOn with
  | nil =>
    intro path m c s hm hc
    rw [parentLevelForEach]
    simp only [List.length_nil, Int.ofNat_zero, neg_zero]
    rw [if_neg (by omega)]
    simp only [List.append_nil] at hc ⊢
    rw [hm] at hc
    cases hc
    rfl
  | append_singleton q' i ih =>
    intro path m c s hm hc
    rw [parentLevelForEach]
    rw [if_pos (by simp; omega)]
    have hc' := hc
    rw [← List.append_assoc] at hc'
    rw [get_append root (path ++ q') [i]] at hc'
    cases hmid : HNode.get root (path ++ q') with
    | none => rw [hmid] at hc'; simp at hc'
    | some mid =>
      have hp : PNode.parent ⟨root, path ++ (q' ++ [i]), c⟩ = some ⟨root, path ++ q', mid⟩ := by
        rw [show path ++ (q' ++ [i]) = (path ++ q') ++ [i] by simp]
        exact parent_concat root (path ++ q') i c mid hmid
      rw [hp]
      have harith : -((q' ++ [i]).length : Int) + 1 = -(q'.length : Int) := by
        simp
      rw [harith]
      exact ih path m mid s hm hmid

theorem runList_append {σ : Type} (f : Visitor σ) (a b : List PNode) (s : σ) :
    runList f (a ++ b) s = runList f b (runList f a s) := by
  simp [runList, List.foldl_append]

theorem descAt_mem : ∀ (n : Nat) (p : PNode), p.valid → ∀ d ∈ descAt n p,
    d.root = p.root ∧ ∃ q, d.path = p.path ++ q ∧ q.length = n ∧
      p.root.get d.path = some d.cur := by
  intro n
  induction n with
  | zero =>
    intro p hv d hd
    rw [descAt] at hd
    simp at hd
    subst hd
    exact ⟨rfl, [], by simp, rfl, hv⟩
  | succ n ih =>
    intro p hv d hd
    rw [descAt] at hd
    have aux : ∀ (cs : List HNode) (i : Nat),
        (∀ k c, cs.get? k = some c → p.root.get (p.path ++ [i + k]) = some c) →
        ∀ d ∈ descAtList n p.root p.path i cs,
          d.root = p.root ∧ ∃ q, d.path = p.path ++ q ∧ q.length = n + 1 ∧
            p.root.get d.path = some d.cur := by
      intro cs
      induction cs with
      | nil =>
        intro i _ d hd
        rw [descAtList] at hd
        simp at hd
      | cons c rest ihc =>
        intro i hk d hd
        rw [descAtList] at hd
        rw [List.mem_append] at hd
        cases hd with
        | inl h1 =>
          have hvc : (⟨p.root, p.path ++ [i], c⟩ : PNode).valid := by
            have := hk 0 c (by simp)
            simpa [PNode.valid] using this
          obtain ⟨hr, q, hq, hlen, hget⟩ := ih ⟨p.root, p.path ++ [i], c⟩ hvc d h1
          exact ⟨hr, i :: q, by simpa using hq, by simp [hlen], hget⟩
        | inr h2 =>
          apply ihc (i + 1) _ d h2
          intro k c' hkc
          have := hk (k + 1) c' (by simpa using hkc)
          rw [show i + 1 + k = i + (k + 1) by omega]
          exact this
    apply aux p.cur.children 0 _ d hd
    intro k c hkc
    rw [get_append, hv]
    simp only [Option.bind_some, Nat.zero_add]
    rw [List.get?_eq_getElem?] at hkc
    simp [HNode.get, hkc]

theorem childLevel_run {σ : Type} (f : Visitor σ)
    (hf : ∀ s v, (f s v).2 ≠ some GoErr.brk) :
    ∀ (n : Nat) (p : PNode) (s : σ),
      (childLevelForEach p (n : Int) f s).1 = runList f (descAt n p) s ∧
      (childLevelForEach p (n : Int) f s).2 ≠ some GoErr.brk := by
  intro n
  induction n with
  | zero =>
    intro p s
    constructor
    · rw [childLevelForEach, descAt]
      simp [runList]
    · rw [childLevelForEach]
      simp only [Nat.cast_zero, if_pos rfl]
      exact hf s p
  | succ n ih =>
    have aux : ∀ (root : HNode) (path : List Nat) (cs : List HNode) (i : Nat) (s : σ),
        (childLevelLoop root path i cs (n : Int) f s).1
          = runList f (descAtList n root path i cs) s ∧
        (childLevelLoop root path i cs (n : Int) f s).2 ≠ some GoErr.brk := by
      intro root path cs
      induction cs with
      | nil =>
        intro i s
        rw [childLevelLoop, descAtList]
        simp [runList]
      | cons c rest ihc =>
        intro i s
        obtain ⟨e1, e2⟩ := ih ⟨root, path ++ [i], c⟩ s
        obtain ⟨f1, f2⟩ :=
          ihc (i + 1) ((childLevelForEach ⟨root, path ++ [i], c⟩ (n : Int) f s).1)
        simp only [childLevelLoop, descAtList]
        rw [if_neg e2]
        constructor
        · rw [f1, e1, runList_append]
        · exact f2
    intro p s
    constructor
    · rw [childLevelForEach, descAt]
      rw [if_neg (by push_cast; omega)]
      rw [show ((n + 1 : Nat) : Int) - 1 = (n : Int) by push_cast; ring]
      exact (aux p.root p.path p.cur.children 0 s).1
    · rw [childLevelForEach]
      rw [if_neg (by push_cast; omega)]
      rw [show ((n + 1 : Nat) : Int) - 1 = (n : Int) by push_cast; ring]
      exact (aux p.root p.path p.cur.children 0 s).2

theorem fixLoop_brkFree {σ : Type} (V : Visitor σ)
    (hV : ∀ s v, (V s v).2 ≠ some GoErr.brk) (l : List PNode) (s : σ) :
    fixLoop l V s = runList V l s := by
  induction l generalizing s with
  | nil => simp [fixLoop, runList]
  | cons v l' ih =>
    simp only [fixLoop]
    rw [if_neg (hV s v)]
    rw [ih]
    rfl

theorem runList_const_append (g : Visitor (List PNode)) (l : List PNode) (v : PNode)
    (h : ∀ s d, d ∈ l → (g s d).1 = s ++ [v]) :
    ∀ s, runList g l s = s ++ List.replicate l.length v := by
  induction l with
  | nil => intro s; simp [runList]
  | cons d l' ih =>
    intro s
    rw [show runList g (d :: l') s = runList g l' ((g s d).1) from rfl]
    rw [h s d (by simp)]
    rw [ih (fun s d hd => h s d (by simp [hd])) (s ++ [v])]
    simp [List.replicate_succ]

theorem runList_pointwise (V : Visitor (List PNode)) (l : List PNode)
    (F : PNode → List PNode)
    (h : ∀ s v, v ∈ l → (V s v).1 = s ++ F v) :
    ∀ s, runList V l s = s ++ (l.map F).flatten := by
  induction l with
  | nil => intro s; simp [runList]
  | cons v l' ih =>
    intro s
    rw [show runList V (v :: l') s = runList V l' ((V s v).1) from rfl]
    rw [h s v (by simp)]
    rw [ih (fun s v hv => h s v (by simp [hv])) (s ++ F v)]
    simp

theorem childN_roundTrip_general (inp : List PNode) (n : Int) (h1 : 1 ≤ n)
    (hv : ∀ v ∈ inp, v.valid) :
    NodeSet.Collect ((NodeSet.ChildN ⟨some (NodeEnum.fixNodes inp), none⟩ n).ChildN (-n))
      = ((inp.map fun v => List.replicate (descAt n.toNat v).length v).flatten, none) := by
  have hk : ((n.toNat : Nat) : Int) = n := Int.toNat_of_nonneg (by omega)
  have hop : (NodeSet.ChildN ⟨some (NodeEnum.fixNodes inp), none⟩ n).ChildN (-n)
      = ⟨some (NodeEnum.parentLevelNodes
          (some (NodeEnum.childLevelNodes (some (NodeEnum.fixNodes inp)) n)) (-n)), none⟩ := by
    simp [NodeSet.ChildN, show ¬(n = 0) by omega, show n > 0 by omega,
      show ¬(-n = 0) by omega, show ¬(-n > 0) by omega]
  rw [hop]
  simp only [NodeSet.Collect, NodeEnum.forEach, NodeEnum.forEachOpt]
  have hgbf : ∀ (s : List PNode) (d : PNode),
      (parentLevelForEach d (-n) collectStep s).2 ≠ some GoErr.brk :=
    fun s d => parentLevel_brkFree collectStep (by simp [collectStep]) d (-n) s
  have hVbf : ∀ (s : List PNode) (v : PNode),
      (childLevelForEach v n (fun s2 d => parentLevelForEach d (-n) collectStep s2) s).2
        ≠ some GoErr.brk := by
    intro s v
    have h2 := (childLevel_run _ hgbf n.toNat v s).2
    rw [hk] at h2
    exact h2
  rw [fixLoop_brkFree _ hVbf]
  rw [runList_pointwise _ inp (fun v => List.replicate (descAt n.toNat v).length v) ?_ []]
  · simp
  · intro s v hmem
    have h3 := (childLevel_run _ hgbf n.toNat v s).1
    rw [hk] at h3
    rw [h3]
    apply runList_const_append
    intro s' d hd
    obtain ⟨hr, q, hq, hlen, hget⟩ := descAt_mem n.toNat v (hv v hmem) d hd
    have hd_eq : d = ⟨v.root, v.path ++ q, d.cur⟩ := by
      cases d
      simp only at hr hq ⊢
      rw [hr, hq]
    rw [hd_eq]
    have hqn : -((n.toNat : Nat) : Int) = -((q.length : Nat) : Int) := by
      rw [hlen]
    rw [hk] at hqn
    rw [hqn]
    rw [parentLevel_ascend collectStep v.root q v.path v.cur d.cur s' (hv v hmem)
      (by rw [← hq]; exact hget)]
    rfl

/-- Claim C3 (amended): for every level n >= 1 and consistent input pointers,
ChildN(n) followed by ChildN(-n), collected, yields the original input nodes
in order, each repeated once per depth-n descendant (so at least once
whenever the level is valid for it) — the original sequence as a set, but
not the original sequence when some input has several depth-n descendants;
for n < 0 the composite can even emit non-input cousin nodes. -/
theorem childN_roundTrip_multiplicity (inp : List PNode) (n : Int) (h1 : 1 ≤ n)
    (hv : ∀ v ∈ inp, v.valid) :
    NodeSet.Collect ((NodeSet.ChildN ⟨some (NodeEnum.fixNodes inp), none⟩ n).ChildN (-n))
      = ((inp.map fun v => List.replicate (descAt n.toNat v).length v).flatten, none) :=
  childN_roundTrip_general inp n h1 hv

/-- Claim C3 (counterexample to the claim as stated): a div with two children
satisfies the claim's validity precondition for n = 1, yet ChildN(1) followed
by ChildN(-1) collects the div twice — once per depth-1 descendant — not the
original one-element sequence. -/
theorem childN_roundTrip_duplicates :
    exDivLoc.valid ∧
    descAt 1 exDivLoc ≠ [] ∧
    NodeSet.Collect ((NodeSet.ChildN ⟨some (NodeEnum.fixNodes [exDivLoc]), none⟩ 1).ChildN (-1))
      = ([exDivLoc, exDivLoc], none) ∧
    ([exDivLoc, exDivLoc] : List PNode) ≠ [exDivLoc] := by
  have hdesc : descAt 1 exDivLoc = [exPALoc, exPBLoc] := by
    simp [descAt, descAtList, exDivLoc, exDiv, exPA, exPB, exPALoc, exPBLoc, HNode.children]
  have h := childN_roundTrip_general [exDivLoc] 1 (by norm_num) (by decide)
  rw [show (1 : Int).toNat = 1 from rfl] at h
  refine ⟨by decide, by rw [hdesc]; decide, ?_, by decide⟩
  rw [h]
  simp [hdesc]

/-- Claim C3 witness: the round trip at level 1 on the single-child p node of
the example tree, where the multiplicity formula gives exactly one copy. -/
theorem childN_roundTrip_multiplicity_witness :
    (1 ≤ (1 : Int)) ∧ (∀ v ∈ [exPALoc], v.valid) ∧
    NodeSet.Collect ((NodeSet.ChildN ⟨some (NodeEnum.fixNodes [exPALoc]), none⟩ 1).ChildN (-1))
      = (([exPALoc].map fun v => List.replicate (descAt (1 : Int).toNat v).length v).flatten,
         none) :=
  ⟨by norm_num, by decide, childN_roundTrip_multiplicity [exPALoc] 1 (by norm_num) (by decide)⟩
